import Mathlib

/-!
Verification development for the document-ingestion pipeline of this
repository (a RAG document-upload service).

Texts are modelled as `List Char`; the JavaScript string operations used by
the source (`slice`, `trim`, `split`, whitespace collapsing) are embedded as
executable functions on character lists.  JavaScript `\s` whitespace is
modelled by its ASCII subset (space, tab, newline, carriage return, vertical
tab, form feed), which is the set exercised by the source's test inputs.
The two loops of `splitLongText` in `src/lib/documentProcessing.ts` do not
terminate for degenerate parameter choices (for example `chunkSize = 0`), so
they are embedded with an explicit fuel parameter; when fuel runs out the
accumulated chunks are returned.  All properties proved below hold for every
fuel value.
-/

/-- Whitespace test used by the embeddings of the `\s`-based regular
expressions in `documentProcessing.ts` (ASCII subset of JS `\s`). -/
def isWS (c : Char) : Bool :=
  c = ' ' || c = '\t' || c = '\n' || c = '\r' || c = '\x0b' || c = '\x0c'

/-- Helper for `collapseWS`: the boolean records whether the previous
character belonged to a whitespace run that has already emitted its single
replacement space. -/
def collapseWSGo : Bool → List Char → List Char
  | _, [] => []
  | prevWS, c :: rest =>
    if isWS c then
      if prevWS then collapseWSGo true rest
      else ' ' :: collapseWSGo true rest
    else c :: collapseWSGo false rest

/-- Embedding of `p.replace(/\s+/g, " ")` (documentProcessing.ts line 20):
every maximal whitespace run is replaced by a single space. -/
def collapseWS (l : List Char) : List Char := collapseWSGo false l

/-- Embedding of JavaScript `String.prototype.trim`: drop whitespace from
both ends. -/
def trim (l : List Char) : List Char :=
  ((l.dropWhile isWS).reverse.dropWhile isWS).reverse

/-- Index of the last `'\n'` of a character list, if any; used to model the
greedy match of the paragraph-separator regular expression. -/
def lastNewlineIdx : List Char → Option Nat
  | [] => none
  | c :: rest =>
    match lastNewlineIdx rest with
    | some j => some (j + 1)
    | none => if c = '\n' then some (0 : Nat) else none

/-- Scanner for `text.split(/\n\s*\n/)` (documentProcessing.ts line 19).
A match starts at a `'\n'` whose following maximal whitespace run contains
another `'\n'`; the greedy `\s*` makes the match end at the last `'\n'` of
that run.  `acc` holds the current token reversed.  The fuel
`text.length + 1` supplied by `splitParagraphs` always suffices because
every step consumes at least one character. -/
def splitParagraphsGo : Nat → List Char → List Char → List (List Char)
  | 0, rest, acc => [acc.reverse ++ rest]
  | _ + 1, [], acc => [acc.reverse]
  | fuel + 1, c :: rest, acc =>
    if c = '\n' then
      match lastNewlineIdx (rest.takeWhile isWS) with
      | some j => acc.reverse :: splitParagraphsGo fuel (rest.drop (j + 1)) []
      | none => splitParagraphsGo fuel rest (c :: acc)
    else splitParagraphsGo fuel rest (c :: acc)

/-- Embedding of `text.split(/\n\s*\n/)`. -/
def splitParagraphs (text : List Char) : List (List Char) :=
  splitParagraphsGo (text.length + 1) text []

/-- Embedding of JavaScript indexing `text[i]`: `none` models `undefined`
for out-of-range (including negative) indices. -/
def charAt (l : List Char) (i : Int) : Option Char :=
  if 0 ≤ i then l.get? i.toNat else none

/-- Embedding of JavaScript `text.slice(start, stop)` with the full
negative-index semantics: a negative index counts from the end of the
string, and both indices are clamped to `[0, length]`. -/
def jsSlice (l : List Char) (start stop : Int) : List Char :=
  let len : Int := l.length
  let s : Int := if start < 0 then max (len + start) 0 else min start len
  let e : Int := if stop < 0 then max (len + stop) 0 else min stop len
  (l.take e.toNat).drop s.toNat

/-- Backward scan of the two boundary-search loops in `splitLongText`
(documentProcessing.ts lines 103-127): starting from `i` and moving down
while `i > searchStart`, return the first index satisfying `ok`. -/
def findBoundaryFrom (ok : Int → Bool) (searchStart : Int) : Nat → Int → Option Int
  | 0, _ => none
  | fuel + 1, i =>
    if searchStart < i then
      if ok i then some i else findBoundaryFrom ok searchStart fuel (i - 1)
    else none

/-- Sentence-boundary test of documentProcessing.ts lines 108-111: the
character before `i` is `.`/`!`/`?` and the character at `i` is a space. -/
def sentenceBoundaryAt (text : List Char) (i : Int) : Bool :=
  (charAt text (i - 1) == some '.' || charAt text (i - 1) == some '!' ||
    charAt text (i - 1) == some '?') && charAt text i == some ' '

/-- Fallback boundary test of documentProcessing.ts line 122: the character
before `i` is a comma or a space. -/
def commaOrSpaceAt (text : List Char) (i : Int) : Bool :=
  charAt text (i - 1) == some ',' || charAt text (i - 1) == some ' '

/-- Embedding of the word-boundary adjustment loop of documentProcessing.ts
lines 143-145: `while (position > 0 && position < text.length &&
text[position] !== " ") position++`.  Fuel `text.length` suffices because
the position increases and must stay below `text.length`. -/
def adjustToWordBoundary (text : List Char) : Nat → Int → Int
  | 0, p => p
  | fuel + 1, p =>
    if 0 < p ∧ p < (text.length : Int) ∧ charAt text p ≠ some ' ' then
      adjustToWordBoundary text fuel (p + 1)
    else p

/-- Cut-point computation of `splitLongText` (documentProcessing.ts lines
90-128): the naive cut `min(position + chunkSize, text.length)`, moved back
to the nearest sentence boundary (falling back to a comma or space) found
within the window `(searchStart, chunkEnd]`.  The float expression
`Math.floor(chunkSize * 0.7)` is modelled by the exact integer
`7 * chunkSize / 10`. -/
def computeChunkEnd (text : List Char) (chunkSize : Nat) (position : Int) : Int :=
  let chunkEnd0 : Int := min (position + (chunkSize : Int)) (text.length : Int)
  if chunkEnd0 < (text.length : Int) then
    let searchStart : Int := max (position + ((7 * chunkSize / 10 : Nat) : Int)) position
    match findBoundaryFrom (sentenceBoundaryAt text) searchStart
        (chunkEnd0 - searchStart).toNat chunkEnd0 with
    | some i => i
    | none =>
      match findBoundaryFrom (commaOrSpaceAt text) searchStart
          (chunkEnd0 - searchStart).toNat chunkEnd0 with
      | some i => i
      | none => chunkEnd0
  else chunkEnd0

/-- One round of the `while (position < text.length)` loop of
`splitLongText` (documentProcessing.ts lines 89-147), with fuel.  When fuel
runs out (the source loop does not terminate for degenerate parameters) the
chunks accumulated so far are returned. -/
def splitLongTextGo (text : List Char) (chunkSize overlap : Nat) :
    Nat → Int → List (List Char) → List (List Char)
  | 0, _, acc => acc
  | fuel + 1, position, acc =>
    if position < (text.length : Int) then
      let chunkEnd : Int := computeChunkEnd text chunkSize position
      let chunk : List Char := trim (jsSlice text position chunkEnd)
      let acc' : List (List Char) := if 0 < chunk.length then acc ++ [chunk] else acc
      let position1 : Int := chunkEnd
      let position2 : Int :=
        if position1 < (text.length : Int) ∧ acc' ≠ [] then
          adjustToWordBoundary text text.length
            (max (position1 - (overlap : Int)) (chunkEnd - (overlap : Int)))
        else position1
      splitLongTextGo text chunkSize overlap fuel position2 acc'
    else acc

/-- Embedding of `splitLongText` (documentProcessing.ts lines 81-150). -/
def splitLongText (fuel : Nat) (text : List Char) (chunkSize overlap : Nat) :
    List (List Char) :=
  splitLongTextGo text chunkSize overlap fuel 0 []

/-- Minimum number of characters a chunk must have to survive the final
filter of `chunkText` (the literal `50` of documentProcessing.ts line 74;
called `minChunkChars` by the specification). -/
def MIN_CHUNK_CHARS : Nat := 50

/-- Loop state of the paragraph loop of `chunkText` (documentProcessing.ts
lines 22-23): the chunks pushed so far, the running buffer, and the overlap
carried from the previously closed chunk. -/
structure ChunkState where
  chunks : List (List Char)
  currentChunk : List Char
  previousOverlap : List Char
deriving Repr, DecidableEq

/-- Body of the `for (const paragraph of paragraphs)` loop of `chunkText`
(documentProcessing.ts lines 25-66).  `st.currentChunk.drop
(st.currentChunk.length - overlap)` embeds
`currentChunk.slice(Math.max(0, currentChunk.length - overlap))` (natural
subtraction truncates at zero exactly like the `Math.max`).  In the
long-paragraph branch the source reads `subChunks[subChunks.length - 1]`,
which throws in JavaScript when `subChunks` is empty; that situation is
reachable only with degenerate parameters (`chunkSize = 0`) or exhausted
fuel and is modelled by `getLastD` returning `[]`. -/
def chunkStep (chunkSize overlap fuel : Nat) (st : ChunkState)
    (paragraph : List Char) : ChunkState :=
  if paragraph = [] then st
  else if chunkSize < st.currentChunk.length + paragraph.length + 1 then
    let st1 : ChunkState :=
      if 0 < st.currentChunk.length then
        { st with
          chunks := st.chunks ++ [trim st.currentChunk],
          previousOverlap :=
            trim (st.currentChunk.drop (st.currentChunk.length - overlap)) }
      else st
    if chunkSize < paragraph.length then
      let subChunks := splitLongText fuel paragraph chunkSize overlap
      let pushed : List (List Char) :=
        match subChunks with
        | [] => []
        | s0 :: rest =>
          (if st1.previousOverlap ≠ [] then trim (st1.previousOverlap ++ ' ' :: s0)
           else s0) :: rest
      let lastSubChunk := subChunks.getLastD []
      { chunks := st1.chunks ++ pushed,
        currentChunk := [],
        previousOverlap := trim (lastSubChunk.drop (lastSubChunk.length - overlap)) }
    else
      { st1 with
        currentChunk :=
          if st1.previousOverlap ≠ [] then st1.previousOverlap ++ ' ' :: paragraph
          else paragraph }
  else
    { st with
      currentChunk :=
        if st.currentChunk ≠ [] then st.currentChunk ++ ' ' :: paragraph
        else paragraph }

/-- Embedding of `chunkText` (documentProcessing.ts lines 9-75): normalize
paragraphs, run the accumulation loop, push the final buffer, and filter out
chunks shorter than 50 characters. -/
def chunkText (fuel : Nat) (text : List Char) (chunkSize overlap : Nat) :
    List (List Char) :=
  let paragraphs := (splitParagraphs text).map fun p => trim (collapseWS p)
  let st := paragraphs.foldl (chunkStep chunkSize overlap fuel) ⟨[], [], []⟩
  let chunks :=
    if 0 < (trim st.currentChunk).length then st.chunks ++ [trim st.currentChunk]
    else st.chunks
  chunks.filter fun c => MIN_CHUNK_CHARS ≤ c.length

/-- Default value of the `chunkSize` parameter of `chunkText`
(documentProcessing.ts line 11). -/
def chunkTextDefaultChunkSize : Nat := 1700

/-- Default value of the `overlap` parameter of `chunkText`
(documentProcessing.ts line 12). -/
def chunkTextDefaultOverlap : Nat := 250

/-- Document-processing constant of `src/constants.ts` line 7. -/
def CHUNK_SIZE : Nat := 1700

/-- Document-processing constant of `src/constants.ts` line 8. -/
def CHUNK_OVERLAP : Nat := 250

/-- Embedding-call batch ceiling of `src/constants.ts` line 9. -/
def MAX_BATCH_SIZE : Nat := 50

/-- Store-write batch ceiling of `src/constants.ts` line 10. -/
def CHROMA_MAX_BATCH : Nat := 5000

/-- The chunk list computed by the streaming upload endpoint (part_003 line
128): `chunkText(text, CHUNK_SIZE, CHUNK_OVERLAP)`. -/
def endpointChunks (fuel : Nat) (text : List Char) : List (List Char) :=
  chunkText fuel text CHUNK_SIZE CHUNK_OVERLAP

/-! General helper lemmas. -/

/-- A predicate preserved by every step of a left fold holds of its result. -/
theorem foldl_preserves {σ α : Type _} (P : σ → Prop) (f : σ → α → σ)
    (h : ∀ s a, P s → P (f s a)) :
    ∀ (l : List α) (s : σ), P s → P (l.foldl f s)
  | [], _, hs => hs
  | a :: l, s, hs => foldl_preserves P f h l (f s a) (h s a hs)

/-- Dropping a whitespace prefix never lengthens a string. -/
theorem length_dropWhile_isWS_le (l : List Char) :
    (l.dropWhile isWS).length ≤ l.length :=
  (List.dropWhile_suffix isWS).sublist.length_le

/-- Trimming never lengthens a string. -/
theorem trim_length_le (l : List Char) : (trim l).length ≤ l.length := by
  unfold trim
  simp only [List.length_reverse]
  calc (List.dropWhile isWS (List.dropWhile isWS l).reverse).length
      ≤ (List.dropWhile isWS l).reverse.length := length_dropWhile_isWS_le _
    _ = (List.dropWhile isWS l).length := List.length_reverse _
    _ ≤ l.length := length_dropWhile_isWS_le _

/-- The tail-overlap slice `currentChunk.slice(max(0, length - overlap))`
keeps at most `overlap` characters. -/
theorem drop_sub_length_le (l : List Char) (o : Nat) :
    (l.drop (l.length - o)).length ≤ o := by
  simp only [List.length_drop]
  omega

/-- A JavaScript slice between ordered indices has at most `stop - start`
characters. -/
theorem jsSlice_length_le (l : List Char) (a b : Int) (hab : a ≤ b) :
    (jsSlice l a b).length ≤ (b - a).toNat := by
  unfold jsSlice
  simp only [List.length_drop, List.length_take]
  split <;> split <;> omega

/-- The backward boundary scan returns an index inside the search window. -/
theorem findBoundaryFrom_bounds (ok : Int → Bool) (ss : Int) :
    ∀ (fuel : Nat) (i j : Int), findBoundaryFrom ok ss fuel i = some j →
      ss < j ∧ j ≤ i := by
  intro fuel
  induction fuel with
  | zero => intro i j h; simp [findBoundaryFrom] at h
  | succ n ih =>
    intro i j h
    simp only [findBoundaryFrom] at h
    split at h
    · split at h
      · cases h; omega
      · have := ih (i - 1) j h
        omega
    · cases h

/-- The cut point chosen by `computeChunkEnd` lies between `position` and
`position + chunkSize` whenever `position` is inside the text. -/
theorem computeChunkEnd_bounds (text : List Char) (chunkSize : Nat)
    (position : Int) (hpos : position < (text.length : Int)) :
    position ≤ computeChunkEnd text chunkSize position ∧
      computeChunkEnd text chunkSize position ≤ position + chunkSize := by
  simp only [computeChunkEnd]
  have h0 : position ≤ min (position + (chunkSize : Int)) (text.length : Int) := by
    omega
  have h1 : min (position + (chunkSize : Int)) (text.length : Int) ≤
      position + chunkSize := by omega
  split
  · split
    · next i heq =>
      have hb := findBoundaryFrom_bounds _ _ _ _ _ heq
      constructor <;> omega
    · split
      · next i heq =>
        have hb := findBoundaryFrom_bounds _ _ _ _ _ heq
        constructor <;> omega
      · exact ⟨h0, h1⟩
  · exact ⟨h0, h1⟩

/-- Every chunk produced by the sub-splitter loop is at most `chunkSize`
characters long (it is a trimmed slice between `position` and a cut point at
most `position + chunkSize`). -/
theorem splitLongTextGo_length (text : List Char) (chunkSize overlap : Nat) :
    ∀ (fuel : Nat) (position : Int) (acc : List (List Char)),
      (∀ c ∈ acc, c.length ≤ chunkSize) →
      ∀ c ∈ splitLongTextGo text chunkSize overlap fuel position acc,
        c.length ≤ chunkSize := by
  intro fuel
  induction fuel with
  | zero =>
    intro position acc hacc
    simpa [splitLongTextGo] using hacc
  | succ n ih =>
    intro position acc hacc c hc
    rw [splitLongTextGo] at hc
    split at hc
    · next hpos =>
      refine ih _ _ ?_ c hc
      intro d hd
      split at hd
      · rcases List.mem_append.mp hd with hd | hd
        · exact hacc d hd
        · have hd' : d = trim (jsSlice text position
              (computeChunkEnd text chunkSize position)) := by
            simpa using hd
          subst hd'
          have hce := computeChunkEnd_bounds text chunkSize position hpos
          have hsl := jsSlice_length_le text position
            (computeChunkEnd text chunkSize position) hce.1
          have htr := trim_length_le (jsSlice text position
            (computeChunkEnd text chunkSize position))
          omega
      · exact hacc d hd
    · exact hacc c hc

/-- Every chunk returned by `splitLongText` is at most `chunkSize`
characters long. -/
theorem splitLongText_length (fuel : Nat) (text : List Char)
    (chunkSize overlap : Nat) :
    ∀ c ∈ splitLongText fuel text chunkSize overlap, c.length ≤ chunkSize :=
  splitLongTextGo_length text chunkSize overlap fuel 0 [] (by simp)

/-- Invariant of the paragraph loop of `chunkText`: every pushed chunk and
the running buffer have at most `chunkSize + overlap + 1` characters, and
the carried overlap has at most `overlap` characters. -/
def ChunkInv (chunkSize overlap : Nat) (st : ChunkState) : Prop :=
  (∀ c ∈ st.chunks, c.length ≤ chunkSize + overlap + 1) ∧
    st.currentChunk.length ≤ chunkSize + overlap + 1 ∧
    st.previousOverlap.length ≤ overlap

/-- One paragraph step preserves the chunk-length invariant. -/
theorem chunkStep_inv (chunkSize overlap fuel : Nat) (st : ChunkState)
    (p : List Char) (h : ChunkInv chunkSize overlap st) :
    ChunkInv chunkSize overlap (chunkStep chunkSize overlap fuel st p) := by
  obtain ⟨hch, hcur, hov⟩ := h
  unfold chunkStep
  split
  · exact ⟨hch, hcur, hov⟩
  · split
    · next hbig =>
      -- overflow branch: the buffer (if any) is closed, then the paragraph
      -- is either sub-split or seeded into a fresh buffer
      simp only []
      split
      · next hplong =>
        -- long-paragraph branch
        split
        · next hcc =>
          -- the buffer had content and was pushed with a fresh overlap
          refine ⟨?_, by simp, ?_⟩
          · intro c hc
            simp only [] at hc
            rcases List.mem_append.mp hc with hc | hc
            · rcases List.mem_append.mp hc with hc | hc
              · exact hch c hc
              · have hc' : c = trim st.currentChunk := by simpa using hc
                subst hc'
                exact le_trans (trim_length_le _) hcur
            · -- c comes from the sub-chunk list
              revert hc
              split
              · intro hc; simp at hc
              · next s0 rest heq =>
                intro hc
                have hsub : ∀ d ∈ splitLongText fuel p chunkSize overlap,
                    d.length ≤ chunkSize := splitLongText_length _ _ _ _
                rcases List.mem_cons.mp hc with hc | hc
                · subst hc
                  split
                  · have h0 : s0.length ≤ chunkSize := by
                      exact hsub s0 (by rw [heq]; exact List.mem_cons_self _ _)
                    have hovlen : (trim (st.currentChunk.drop
                        (st.currentChunk.length - overlap))).length ≤ overlap :=
                      le_trans (trim_length_le _) (drop_sub_length_le _ _)
                    have := trim_length_le ((trim (st.currentChunk.drop
                        (st.currentChunk.length - overlap))) ++ ' ' :: s0)
                    simp only [List.length_append, List.length_cons] at this
                    omega
                  · have h0 : s0.length ≤ chunkSize := by
                      exact hsub s0 (by rw [heq]; exact List.mem_cons_self _ _)
                    omega
                · have : c.length ≤ chunkSize :=
                    hsub c (by rw [heq]; exact List.mem_cons_of_mem _ hc)
                  omega
          · exact le_trans (trim_length_le _) (drop_sub_length_le _ _)
        · -- the buffer was empty, nothing pushed before the sub-chunks
          refine ⟨?_, by simp, ?_⟩
          · intro c hc
            simp only [] at hc
            rcases List.mem_append.mp hc with hc | hc
            · exact hch c hc
            · revert hc
              split
              · intro hc; simp at hc
              · next s0 rest heq =>
                intro hc
                have hsub : ∀ d ∈ splitLongText fuel p chunkSize overlap,
                    d.length ≤ chunkSize := splitLongText_length _ _ _ _
                rcases List.mem_cons.mp hc with hc | hc
                · subst hc
                  split
                  · have h0 : s0.length ≤ chunkSize := by
                      exact hsub s0 (by rw [heq]; exact List.mem_cons_self _ _)
                    have := trim_length_le (st.previousOverlap ++ ' ' :: s0)
                    simp only [List.length_append, List.length_cons] at this
                    omega
                  · have h0 : s0.length ≤ chunkSize := by
                      exact hsub s0 (by rw [heq]; exact List.mem_cons_self _ _)
                    omega
                · have : c.length ≤ chunkSize :=
                    hsub c (by rw [heq]; exact List.mem_cons_of_mem _ hc)
                  omega
          · exact le_trans (trim_length_le _) (drop_sub_length_le _ _)
      · next hpshort =>
        -- seed branch: the paragraph fits in a fresh buffer with overlap
        have hplen : p.length ≤ chunkSize := by omega
        split
        · next hcc =>
          refine ⟨?_, ?_, ?_⟩
          · intro c hc
            simp only [] at hc
            rcases List.mem_append.mp hc with hc | hc
            · exact hch c hc
            · have hc' : c = trim st.currentChunk := by simpa using hc
              subst hc'
              exact le_trans (trim_length_le _) hcur
          · simp only []
            have hovlen : (trim (st.currentChunk.drop
                (st.currentChunk.length - overlap))).length ≤ overlap :=
              le_trans (trim_length_le _) (drop_sub_length_le _ _)
            split
            · simp only [List.length_append, List.length_cons]
              omega
            · omega
          · exact le_trans (trim_length_le _) (drop_sub_length_le _ _)
        · refine ⟨hch, ?_, hov⟩
          simp only []
          split
          · simp only [List.length_append, List.length_cons]
            omega
          · omega
    · next hfit =>
      -- grow branch: the paragraph is appended to the running buffer
      refine ⟨hch, ?_, hov⟩
      simp only []
      split
      · simp only [List.length_append, List.length_cons]
        omega
      · omega

/-- C10: for every input text, every chunk size `s > 0` and every overlap
`o ≥ 0`, each chunk returned by `chunkText` has length at most `s + o + 1`:
a chunk may exceed `s` only by the up-to-`o`-character tail overlap plus the
joining space prepended when a new chunk is seeded. -/
theorem chunkText_length_bound (fuel : Nat) (text : List Char)
    (chunkSize overlap : Nat) (_hs : 0 < chunkSize) (c : List Char)
    (hc : c ∈ chunkText fuel text chunkSize overlap) :
    c.length ≤ chunkSize + overlap + 1 := by
  unfold chunkText at hc
  simp only [] at hc
  have hfold : ChunkInv chunkSize overlap
      (((splitParagraphs text).map fun p => trim (collapseWS p)).foldl
        (chunkStep chunkSize overlap fuel) ⟨[], [], []⟩) :=
    foldl_preserves (ChunkInv chunkSize overlap) _
      (fun s a h => chunkStep_inv chunkSize overlap fuel s a h) _ _
      ⟨by simp, by simp, by simp⟩
  obtain ⟨hch, hcur, -⟩ := hfold
  have hc' := (List.mem_filter.mp hc).1
  revert hc'
  split
  · intro hc'
    rcases List.mem_append.mp hc' with hc' | hc'
    · exact hch c hc'
    · have hceq := List.mem_singleton.mp hc'
      subst hceq
      exact le_trans (trim_length_le _) hcur
  · intro hc'
    exact hch c hc'

/-- Witness for C10 at a concrete input: a 60-character text is returned as
one chunk, whose length respects the bound for `s = 1700`, `o = 250`. -/
theorem chunkText_length_bound_witness :
    0 < 1700 ∧
      List.replicate 60 'a' ∈ chunkText 1 (List.replicate 60 'a') 1700 250 ∧
      (List.replicate 60 'a').length ≤ 1700 + 250 + 1 :=
  ⟨by decide, by decide,
    chunkText_length_bound 1 (List.replicate 60 'a') 1700 250 (by decide)
      (List.replicate 60 'a') (by decide)⟩

/-- C5: every chunk returned by `chunkText` has at least `MIN_CHUNK_CHARS`
(50) characters — the final filter of documentProcessing.ts line 74 — and
in particular no returned chunk is empty. -/
theorem chunkText_min_length (fuel : Nat) (text : List Char)
    (chunkSize overlap : Nat) (c : List Char)
    (hc : c ∈ chunkText fuel text chunkSize overlap) :
    MIN_CHUNK_CHARS ≤ c.length ∧ c ≠ [] := by
  unfold chunkText at hc
  have h := (List.mem_filter.mp hc).2
  simp only [decide_eq_true_eq] at h
  refine ⟨h, ?_⟩
  have hpos : 0 < c.length := lt_of_lt_of_le (by norm_num [MIN_CHUNK_CHARS]) h
  exact List.length_pos.mp hpos

/-- Witness for C5 at a concrete input: the 60-character text above yields a
chunk that is at least 50 characters and nonempty. -/
theorem chunkText_min_length_witness :
    List.replicate 60 'a' ∈ chunkText 1 (List.replicate 60 'a') 1700 250 ∧
      (MIN_CHUNK_CHARS ≤ (List.replicate 60 'a').length ∧
        List.replicate 60 'a' ≠ []) :=
  ⟨by decide,
    chunkText_min_length 1 (List.replicate 60 'a') 1700 250
      (List.replicate 60 'a') (by decide)⟩

/-- C6: `chunkText` is deterministic — it is embedded as a pure function of
its text and parameters (and the fuel driving the source's loops), so two
invocations on identical input yield identical chunk sequences. -/
theorem chunkText_deterministic (fuel : Nat) (text : List Char)
    (chunkSize overlap : Nat) :
    chunkText fuel text chunkSize overlap = chunkText fuel text chunkSize overlap :=
  rfl

/-- Counterexample to C7: the default chunking parameters of the code are
not `chunkSize = 800`, `overlap = 200` — `chunkText` defaults to 1700/250
(documentProcessing.ts lines 11-12) and `constants.ts` sets
`CHUNK_SIZE = 1700`, `CHUNK_OVERLAP = 250`. -/
theorem chunk_defaults_not_800_200 :
    chunkTextDefaultChunkSize ≠ 800 ∧ chunkTextDefaultOverlap ≠ 200 ∧
      CHUNK_SIZE ≠ 800 ∧ CHUNK_OVERLAP ≠ 200 := by
  decide

/-- C7 as amended: the default chunking configuration is
`chunkSize = 1700`, `overlap = 250` (both as `chunkText`'s parameter
defaults and as the constants the upload endpoint passes), with
`MIN_CHUNK_CHARS = 50`, embedding batch ceiling `MAX_BATCH_SIZE = 50` and
store batch ceiling `CHROMA_MAX_BATCH = 5000`. -/
theorem chunk_defaults_are_1700_250 :
    chunkTextDefaultChunkSize = 1700 ∧ chunkTextDefaultOverlap = 250 ∧
      CHUNK_SIZE = chunkTextDefaultChunkSize ∧
      CHUNK_OVERLAP = chunkTextDefaultOverlap ∧
      MIN_CHUNK_CHARS = 50 ∧ MAX_BATCH_SIZE = 50 ∧ CHROMA_MAX_BATCH = 5000 ∧
      ∀ (fuel : Nat) (text : List Char),
        endpointChunks fuel text = chunkText fuel text CHUNK_SIZE CHUNK_OVERLAP :=
  ⟨rfl, rfl, rfl, rfl, rfl, rfl, rfl, fun _ _ => rfl⟩

/-! Claim C8: reconstruction of the paragraph-normalized text. -/

/-- The paragraph-joining operation of documentProcessing.ts line 64:
`currentChunk ? currentChunk + " " + paragraph : paragraph`. -/
def growOp (c p : List Char) : List Char :=
  if c = [] then p else c ++ ' ' :: p

/-- The joining operation with the `if (!paragraph) continue` skip of
documentProcessing.ts line 26. -/
def growSkip (c p : List Char) : List Char :=
  if p = [] then c else growOp c p

/-- Specification-side definition for the refinement comparison of C8,
following the spec's words "the original paragraph-normalized text": the
input split on blank-line sequences, each paragraph whitespace-collapsed and
trimmed, empty paragraphs skipped, and the rest joined by single spaces. -/
def specNormalizedText (text : List Char) : List Char :=
  ((splitParagraphs text).map fun p => trim (collapseWS p)).foldl growSkip []

/-- Length of a single join step. -/
theorem growOp_length (c p : List Char) :
    (growOp c p).length = if c = [] then p.length else c.length + p.length + 1 := by
  unfold growOp
  split
  · rfl
  · simp only [List.length_append, List.length_cons]
    omega

/-- Joining never shrinks the buffer. -/
theorem foldl_growSkip_length_mono (ps : List (List Char)) :
    ∀ cur : List Char, cur.length ≤ (ps.foldl growSkip cur).length := by
  induction ps with
  | nil => intro cur; exact le_refl _
  | cons p ps ih =>
    intro cur
    refine le_trans ?_ (ih (growSkip cur p))
    unfold growSkip
    split
    · exact le_refl _
    · rw [growOp_length]
      split
      · next h => rw [h]; simp
      · omega

/-- While the joined text stays below `chunkSize`, the paragraph loop of
`chunkText` never closes a chunk: it only grows the running buffer. -/
theorem chunkFold_no_overflow (chunkSize overlap fuel : Nat) :
    ∀ (ps : List (List Char)) (st : ChunkState),
      (ps.foldl growSkip st.currentChunk).length + 1 ≤ chunkSize →
      ps.foldl (chunkStep chunkSize overlap fuel) st =
        ⟨st.chunks, ps.foldl growSkip st.currentChunk, st.previousOverlap⟩ := by
  intro ps
  induction ps with
  | nil => intro st _; rfl
  | cons p ps ih =>
    intro st hfit
    rw [List.foldl_cons] at hfit ⊢
    rw [List.foldl_cons]
    by_cases hp : p = []
    · have h1 : chunkStep chunkSize overlap fuel st p = st := by
        unfold chunkStep
        rw [if_pos hp]
      have h2 : growSkip st.currentChunk p = st.currentChunk := by
        unfold growSkip
        rw [if_pos hp]
      rw [h1, h2]
      rw [h2] at hfit
      exact ih st hfit
    · have hmono := foldl_growSkip_length_mono ps (growSkip st.currentChunk p)
      have hone : growSkip st.currentChunk p = growOp st.currentChunk p := by
        unfold growSkip
        rw [if_neg hp]
      have hgl := growOp_length st.currentChunk p
      rw [hone] at hfit hmono ⊢
      have hfits : ¬ chunkSize < st.currentChunk.length + p.length + 1 := by
        by_cases hcc : st.currentChunk = []
        · rw [if_pos hcc] at hgl
          rw [hcc]
          simp only [List.length_nil]
          omega
        · rw [if_neg hcc] at hgl
          omega
      have hstep : chunkStep chunkSize overlap fuel st p =
          { st with currentChunk := growOp st.currentChunk p } := by
        unfold chunkStep
        rw [if_neg hp, if_neg hfits]
        have hsame : (if st.currentChunk ≠ [] then st.currentChunk ++ ' ' :: p
            else p) = growOp st.currentChunk p := by
          unfold growOp
          by_cases hcc : st.currentChunk = []
          · rw [if_neg (show ¬ st.currentChunk ≠ [] by simpa using hcc), if_pos hcc]
          · rw [if_pos hcc, if_neg hcc]
        rw [hsame]
      rw [hstep]
      exact ih { st with currentChunk := growOp st.currentChunk p } hfit

/-- The first character of a list, when present, is not whitespace. -/
def headNotWS (l : List Char) : Prop :=
  ∀ c : Char, l.head? = some c → isWS c = false

/-- The last character of a list, when present, is not whitespace. -/
def lastNotWS (l : List Char) : Prop :=
  ∀ c : Char, l.getLast? = some c → isWS c = false

/-- Dropping the whitespace prefix leaves a non-whitespace head. -/
theorem headNotWS_dropWhile (l : List Char) : headNotWS (l.dropWhile isWS) := by
  induction l with
  | nil => intro c hc; simp [List.dropWhile] at hc
  | cons a l ih =>
    intro c hc
    rw [List.dropWhile_cons] at hc
    split at hc
    · exact ih c hc
    · next h =>
      simp only [List.head?_cons, Option.some_inj] at hc
      subst hc
      simpa using h

/-- A nonempty `dropWhile` keeps the last element. -/
theorem getLast?_dropWhile_isWS (l : List Char)
    (h : l.dropWhile isWS ≠ []) :
    (l.dropWhile isWS).getLast? = l.getLast? := by
  obtain ⟨t, ht⟩ := List.dropWhile_suffix (l := l) isWS
  conv_rhs => rw [← ht]
  exact (List.getLast?_append_of_ne_nil t h).symm

/-- Trimming leaves a non-whitespace head. -/
theorem trim_headNotWS (l : List Char) : headNotWS (trim l) := by
  intro c hc
  unfold trim at hc
  rw [List.head?_reverse] at hc
  by_cases hemp : (l.dropWhile isWS).reverse.dropWhile isWS = []
  · rw [hemp] at hc
    simp at hc
  · rw [getLast?_dropWhile_isWS _ hemp, List.getLast?_reverse] at hc
    exact headNotWS_dropWhile l c hc

/-- Trimming leaves a non-whitespace last character. -/
theorem trim_lastNotWS (l : List Char) : lastNotWS (trim l) := by
  intro c hc
  unfold trim at hc
  rw [List.getLast?_reverse] at hc
  exact headNotWS_dropWhile _ c hc

/-- Joining paragraphs preserves a non-whitespace head. -/
theorem foldl_growSkip_headNotWS (ps : List (List Char))
    (hps : ∀ p ∈ ps, headNotWS p) :
    ∀ cur : List Char, headNotWS cur → headNotWS (ps.foldl growSkip cur) := by
  induction ps with
  | nil => intro cur h; exact h
  | cons p ps ih =>
    intro cur hcur
    rw [List.foldl_cons]
    refine ih (fun q hq => hps q (List.mem_cons_of_mem _ hq)) _ ?_
    unfold growSkip growOp
    split
    · exact hcur
    · split
      · exact hps p (List.mem_cons_self _ _)
      · next hc =>
        intro c hc'
        rw [List.head?_append_of_ne_nil _ hc] at hc'
        exact hcur c hc'

/-- Joining paragraphs preserves a non-whitespace last character. -/
theorem foldl_growSkip_lastNotWS (ps : List (List Char))
    (hps : ∀ p ∈ ps, lastNotWS p) :
    ∀ cur : List Char, lastNotWS cur → lastNotWS (ps.foldl growSkip cur) := by
  induction ps with
  | nil => intro cur h; exact h
  | cons p ps ih =>
    intro cur hcur
    rw [List.foldl_cons]
    refine ih (fun q hq => hps q (List.mem_cons_of_mem _ hq)) _ ?_
    unfold growSkip growOp
    split
    · exact hcur
    · next hp =>
      split
      · exact hps p (List.mem_cons_self _ _)
      · intro c hc'
        rw [List.getLast?_append_of_ne_nil _ (List.cons_ne_nil ' ' p)] at hc'
        have : (' ' :: p).getLast? = p.getLast? := by
          cases p with
          | nil => exact absurd rfl hp
          | cons b q => rw [List.getLast?_cons_cons]
        rw [this] at hc'
        exact hps p (List.mem_cons_self _ _) c hc'

/-- A list whose first and last characters are not whitespace is unchanged
by trimming. -/
theorem trim_eq_self (l : List Char) (h1 : headNotWS l) (h2 : lastNotWS l) :
    trim l = l := by
  have hleft : l.dropWhile isWS = l := by
    cases l with
    | nil => rfl
    | cons a t =>
      rw [List.dropWhile_cons, if_neg ?_]
      have := h1 a (by rw [List.head?_cons])
      simp [this]
  unfold trim
  rw [hleft]
  have hright : l.reverse.dropWhile isWS = l.reverse := by
    cases hr : l.reverse with
    | nil => rfl
    | cons a t =>
      rw [List.dropWhile_cons, if_neg ?_]
      have ha : l.getLast? = some a := by
        rw [← List.head?_reverse, hr, List.head?_cons]
      have := h2 a ha
      simp [this]
  rw [hright, List.reverse_reverse]

/-- The paragraph-normalized text is already trimmed. -/
theorem specNormalizedText_trim (text : List Char) :
    trim (specNormalizedText text) = specNormalizedText text := by
  apply trim_eq_self
  · apply foldl_growSkip_headNotWS
    · intro p hp
      obtain ⟨q, -, rfl⟩ := List.mem_map.mp hp
      exact trim_headNotWS _
    · intro c hc
      simp at hc
  · apply foldl_growSkip_lastNotWS
    · intro p hp
      obtain ⟨q, -, rfl⟩ := List.mem_map.mp hp
      exact trim_lastNotWS _
    · intro c hc
      simp at hc

/-- Counterexample to C8 as stated: for a 10-character input the
paragraph-normalized text is nonempty, yet `chunkText` (with the
configuration the endpoint passes) returns no chunks at all — the single
sub-50-character chunk is discarded by the final filter, so every character
of the normalized input is absent from every chunk and concatenation cannot
reconstruct it. -/
theorem chunkText_reconstruction_counterexample :
    chunkText 20 (List.replicate 10 'a') CHUNK_SIZE CHUNK_OVERLAP = [] ∧
      specNormalizedText (List.replicate 10 'a') = List.replicate 10 'a' ∧
      List.replicate 10 'a' ≠ ([] : List Char) := by
  decide

/-- C8 as amended: reconstruction holds once no chunk is dropped or split —
whenever the paragraph-normalized text is at least `MIN_CHUNK_CHARS`
characters (so the filter keeps it) and fits within `chunkSize` (so the loop
never closes an intermediate chunk), `chunkText` returns exactly the
paragraph-normalized text as its single chunk, with no missing segment. -/
theorem chunkText_single_chunk (fuel : Nat) (text : List Char)
    (chunkSize overlap : Nat)
    (h50 : MIN_CHUNK_CHARS ≤ (specNormalizedText text).length)
    (hfit : (specNormalizedText text).length + 1 ≤ chunkSize) :
    chunkText fuel text chunkSize overlap = [specNormalizedText text] := by
  have hJ : specNormalizedText text =
      ((splitParagraphs text).map fun p => trim (collapseWS p)).foldl
        growSkip [] := rfl
  unfold chunkText
  simp only []
  rw [chunkFold_no_overflow chunkSize overlap fuel
    ((splitParagraphs text).map fun p => trim (collapseWS p)) ⟨[], [], []⟩
    (by rw [← hJ]; exact hfit)]
  simp only []
  rw [← hJ, specNormalizedText_trim]
  have hpos : 0 < (specNormalizedText text).length := by
    have : MIN_CHUNK_CHARS = 50 := rfl
    omega
  rw [if_pos hpos]
  simp [h50]

/-- Witness for the amended C8 at a concrete input: a 60-character text is
returned as exactly its normalized form. -/
theorem chunkText_single_chunk_witness :
    MIN_CHUNK_CHARS ≤ (specNormalizedText (List.replicate 60 'a')).length ∧
      (specNormalizedText (List.replicate 60 'a')).length + 1 ≤ 1700 ∧
      chunkText 1 (List.replicate 60 'a') 1700 250 =
        [specNormalizedText (List.replicate 60 'a')] :=
  ⟨by decide, by decide,
    chunkText_single_chunk 1 (List.replicate 60 'a') 1700 250 (by decide)
      (by decide)⟩

/-!
Trace model of the streaming upload handler `PUT` (part_003 lines 30-414)
from the point where the chunk list exists (line 129) to stream close.
Chunks and embedding vectors are abstract types; the embedding service
(`POST /api/generate-embedding`, invoked by `fetch` with the request's abort
signal) is a function from the batch payload to the returned vector list.
Cancellation is modelled by `cancelAt`: the abort signal becomes (and stays)
aborted just before remote call number `cancelAt` of the run is issued,
where calls are numbered from 0 in issue order — embedding calls first, then
store-write calls.  Only the embedding `fetch` calls receive the signal
(`signal: request.signal`, lines 182 and 224); `collection.add` receives no
signal and the store loop reads no abort flag, so the store phase of the
model takes no cancellation input at all, mirroring lines 307-359.  The
run assumes the early stages succeeded (file and collection present,
nonempty text): those are the runs every claim below concerns.  Progress
values computed in the source with float arithmetic,
`Math.floor((batchIndex / numBatches) * 70)` and
`Math.floor((batchIndex / numSaveBatches) * 9)`, are modelled by the exact
integer divisions `batchIndex * 70 / numBatches` and
`batchIndex * 9 / numSaveBatches`.
-/

/-- Status tags of the server-sent events of the PUT handler; `errorEv`
stands for the events carrying an `error` field. -/
inductive EvStatus : Type
  | started
  | collectionFound
  | extracting
  | chunking
  | embedding
  | saving
  | complete
  | errorEv
deriving Repr, DecidableEq

/-- One emitted progress event: status tag and `progress` percentage. -/
structure Ev where
  status : EvStatus
  progress : Nat
deriving Repr, DecidableEq

/-- Terminal state of a modelled run. -/
inductive Outcome : Type
  | completed
  | cancelled
  | failedMismatch (expected got : Nat)
deriving Repr, DecidableEq

/-- `Math.ceil(total / maxBatch)` for the natural numbers involved (exact
for the magnitudes the handler sees). -/
def numBatches (total maxBatch : Nat) : Nat := (total + maxBatch - 1) / maxBatch

/-- The slice `list.slice(batchIndex * maxBatch, min(batchIndex * maxBatch +
maxBatch, list.length))` taken by both batching loops (part_003 lines
155-157 and 315-316, where `endIdx = min(startIdx + maxBatch, totalChunks)`). -/
def sliceBatch {α : Type} (l : List α) (maxBatch b : Nat) : List α :=
  (l.drop (b * maxBatch)).take (min (b * maxBatch + maxBatch) l.length - b * maxBatch)

/-- The list of sub-batch payloads a batching loop issues: one slice per
batch index below `Math.ceil(length / maxBatch)` when the list exceeds
`maxBatch`, and otherwise the whole list as a single payload (part_003
lines 147-266 for embedding, 307-359 for store writes). -/
def batchSlices {α : Type} (l : List α) (maxBatch : Nat) : List (List α) :=
  if maxBatch < l.length then
    (List.range (numBatches l.length maxBatch)).map (sliceBatch l maxBatch)
  else [l]

/-- Recursive take/drop formulation of consecutive batching, used to reason
about `batchSlices`. -/
def batchRec {α : Type} (maxBatch : Nat) : Nat → List α → List (List α)
  | 0, _ => []
  | k + 1, l => l.take maxBatch :: batchRec maxBatch k (l.drop maxBatch)

/-- Whether the abort signal is observed as aborted at remote call number
`i`. -/
def cancelCheck (cancelAt : Option Nat) (i : Nat) : Bool :=
  match cancelAt with
  | none => false
  | some t => t ≤ i

/-- Result of the embedding phase: the progress events it sent, the batch
payloads it issued to the embedding service, and the accumulated vectors
(`none` when an aborted `fetch` threw before completion). -/
structure EmbedPhaseResult (α β : Type) where
  events : List Ev
  calls : List (List α)
  vectors : Option (List β)

/-- The `for (batchIndex …)` embedding loop (part_003 lines 154-208): before
each fetch a progress event `20 + floor((batchIndex / numBatches) * 70)` is
sent; the fetch carries the abort signal, so an aborted signal raises and
ends the phase with no vector list; otherwise the returned vectors are
appended (`embeddings.push(...)`) and the loop continues. -/
def embedLoopGo {α β : Type} (svc : List α → List β) (cancelAt : Option Nat)
    (nb : Nat) : List (List α) → Nat → List β → EmbedPhaseResult α β
  | [], _, acc => ⟨[], [], some acc⟩
  | b :: rest, bi, acc =>
    if cancelCheck cancelAt bi then ⟨[⟨.embedding, 20 + bi * 70 / nb⟩], [], none⟩
    else
      let r := embedLoopGo svc cancelAt nb rest (bi + 1) (acc ++ svc b)
      ⟨⟨.embedding, 20 + bi * 70 / nb⟩ :: r.events, b :: r.calls, r.vectors⟩

/-- The embedding phase (part_003 lines 143-266): batched sequential calls
when `totalChunks > MAX_BATCH_SIZE`, otherwise a single call carrying every
chunk (also when there are zero chunks). -/
def embedPhase {α β : Type} (chunks : List α) (svc : List α → List β)
    (cancelAt : Option Nat) : EmbedPhaseResult α β :=
  if MAX_BATCH_SIZE < chunks.length then
    embedLoopGo svc cancelAt (numBatches chunks.length MAX_BATCH_SIZE)
      (batchSlices chunks MAX_BATCH_SIZE) 0 []
  else if cancelCheck cancelAt 0 then ⟨[], [], none⟩
  else ⟨[], [chunks], some (svc chunks)⟩

/-- Number of embedding-service calls a completed embedding phase issues for
`n` chunks. -/
def embedCallCount (n : Nat) : Nat :=
  if MAX_BATCH_SIZE < n then numBatches n MAX_BATCH_SIZE else 1

/-- The ChromaDB save loop (part_003 lines 314-346): before each
`collection.add` a progress event `90 + floor((batchIndex / numSaveBatches)
* 9)` is sent; no abort signal is consulted. -/
def storeLoopGo {ρ : Type} (nsb : Nat) :
    List (List ρ) → Nat → List Ev × List (List ρ)
  | [], _ => ([], [])
  | b :: rest, bi =>
    let r := storeLoopGo nsb rest (bi + 1)
    (⟨.saving, 90 + bi * 9 / nsb⟩ :: r.1, b :: r.2)

/-- The store phase (part_003 lines 296-359): batched writes when
`totalChunks > CHROMA_MAX_BATCH`, otherwise a single `collection.add` with
all records.  A record is modelled as the pair of a chunk and its embedding
vector; the parallel `ids`/`embeddings`/`documents`/`metadatas` arrays are
sliced at identical indices in the source, which is modelled by slicing the
zipped record list once. -/
def storePhase {ρ : Type} (records : List ρ) : List Ev × List (List ρ) :=
  if CHROMA_MAX_BATCH < records.length then
    storeLoopGo (numBatches records.length CHROMA_MAX_BATCH)
      (batchSlices records CHROMA_MAX_BATCH) 0
  else ([], [records])

/-- Result of a modelled run: the events sent over the stream, the record
payloads passed to `collection.add` calls in issue order, and the terminal
outcome. -/
structure RunResult (α β : Type) where
  events : List Ev
  storeCalls : List (List (α × β))
  outcome : Outcome

/-- Trace model of the PUT handler from `const chunks = …` (line 128) to
stream close: the fixed early success events (lines 66-137), the embedding
phase, the count validation (lines 268-280, error raised before any store
write), the store phase, and the final complete event.  An abort observed
during embedding lands in the catch block (lines 371-403), which sends the
cancellation error event with progress 0. -/
def runIngestion {α β : Type} (chunks : List α) (svc : List α → List β)
    (cancelAt : Option Nat) : RunResult α β :=
  let pre : List Ev := [⟨.started, 0⟩, ⟨.collectionFound, 5⟩,
    ⟨.extracting, 10⟩, ⟨.chunking, 15⟩, ⟨.embedding, 20⟩]
  let e := embedPhase chunks svc cancelAt
  match e.vectors with
  | none => ⟨pre ++ e.events ++ [⟨.errorEv, 0⟩], [], .cancelled⟩
  | some vectors =>
    if vectors.length ≠ chunks.length then
      ⟨pre ++ e.events ++ [⟨.errorEv, 0⟩], [],
        .failedMismatch chunks.length vectors.length⟩
    else
      let s := storePhase (chunks.zip vectors)
      ⟨pre ++ e.events ++ [⟨.embedding, 90⟩, ⟨.saving, 90⟩] ++ s.1 ++
          [⟨.complete, 100⟩],
        s.2, .completed⟩

/-- Taking at most the length is the same as taking the requested amount. -/
theorem take_min_length {α : Type} (l : List α) (n : Nat) :
    l.take (min n l.length) = l.take n := by
  rcases Nat.le_total n l.length with h | h
  · rw [Nat.min_eq_left h]
  · rw [Nat.min_eq_right h, List.take_length, List.take_of_length_le h]

/-- The first slice of a batching loop is the first `maxBatch` elements. -/
theorem sliceBatch_zero {α : Type} (l : List α) (M : Nat) :
    sliceBatch l M 0 = l.take M := by
  unfold sliceBatch
  simp only [Nat.zero_mul, List.drop_zero, Nat.zero_add, Nat.sub_zero]
  exact take_min_length l M

/-- Slice `b + 1` of a list is slice `b` of the list with its first
`maxBatch` elements removed. -/
theorem sliceBatch_succ {α : Type} (l : List α) (M b : Nat) :
    sliceBatch l M (b + 1) = sliceBatch (l.drop M) M b := by
  unfold sliceBatch
  rw [Nat.add_mul, Nat.one_mul, List.drop_drop, List.length_drop]
  have hamt : min (b * M + M + M) l.length - (b * M + M) =
      min (b * M + M) (l.length - M) - b * M := by
    generalize b * M = x
    omega
  rw [hamt, Nat.add_comm M (b * M)]

/-- The slice loop of the source equals consecutive take/drop batching. -/
theorem range_map_sliceBatch {α : Type} (M : Nat) :
    ∀ (k : Nat) (l : List α),
      (List.range k).map (sliceBatch l M) = batchRec M k l := by
  intro k
  induction k with
  | zero => intro l; rfl
  | succ n ih =>
    intro l
    rw [List.range_succ_eq_map, List.map_cons, List.map_map, batchRec]
    congr 1
    · exact sliceBatch_zero l M
    · rw [← ih (l.drop M)]
      apply List.map_congr_left
      intro a _
      simp only [Function.comp_apply]
      exact sliceBatch_succ l M a

/-- Number of batches produced by take/drop batching. -/
theorem batchRec_length {α : Type} (M : Nat) :
    ∀ (k : Nat) (l : List α), (batchRec M k l).length = k := by
  intro k
  induction k with
  | zero => intro l; rfl
  | succ n ih => intro l; rw [batchRec, List.length_cons, ih]

/-- Concatenating `k` consecutive batches recovers the first `k * maxBatch`
elements. -/
theorem batchRec_flatten {α : Type} (M : Nat) :
    ∀ (k : Nat) (l : List α), (batchRec M k l).flatten = l.take (k * M) := by
  intro k
  induction k with
  | zero => intro l; simp [batchRec]
  | succ n ih =>
    intro l
    rw [batchRec, List.flatten_cons, ih, Nat.succ_mul, Nat.add_comm (n * M) M,
      List.take_add]

/-- Every batch has at most `maxBatch` elements. -/
theorem batchRec_mem_length {α : Type} (M : Nat) :
    ∀ (k : Nat) (l : List α) (c : List α), c ∈ batchRec M k l →
      c.length ≤ M := by
  intro k
  induction k with
  | zero => intro l c hc; simp [batchRec] at hc
  | succ n ih =>
    intro l c hc
    rw [batchRec] at hc
    rcases List.mem_cons.mp hc with hc | hc
    · subst hc
      rw [List.length_take]
      omega
    · exact ih _ c hc

/-- Ceiling division covers the dividend: `n ≤ ceil(n / m) * m`. -/
theorem numBatches_mul_ge (N M : Nat) (hM : 0 < M) :
    N ≤ numBatches N M * M := by
  have h : N ≤ M • (N ⌈/⌉ M) := (gc_smul_ceilDiv hM).le_u_l N
  rw [Nat.ceilDiv_eq_add_pred_div] at h
  unfold numBatches
  simpa [Nat.mul_comm, smul_eq_mul] using h

/-- Ceiling division of a positive dividend is positive. -/
theorem numBatches_pos (N M : Nat) (hM : 0 < M) (hN : 0 < N) :
    0 < numBatches N M := by
  unfold numBatches
  exact (Nat.one_le_div_iff hM).mpr (by omega)

/-- The batch payloads are the take/drop batching (single batch included). -/
theorem batchSlices_eq {α : Type} (l : List α) (M : Nat) :
    batchSlices l M =
      if M < l.length then batchRec M (numBatches l.length M) l else [l] := by
  unfold batchSlices
  split
  · rw [range_map_sliceBatch]
  · rfl

/-- Concatenating all batch payloads recovers the original list in order. -/
theorem batchSlices_flatten {α : Type} (l : List α) (M : Nat) (hM : 0 < M) :
    (batchSlices l M).flatten = l := by
  rw [batchSlices_eq]
  split
  · rw [batchRec_flatten]
    exact List.take_of_length_le (numBatches_mul_ge l.length M hM)
  · simp

/-- Number of batch payloads issued. -/
theorem batchSlices_length {α : Type} (l : List α) (M : Nat) :
    (batchSlices l M).length =
      if M < l.length then numBatches l.length M else 1 := by
  rw [batchSlices_eq]
  split
  · rw [batchRec_length]
  · rfl

/-- Every issued batch payload respects the batch ceiling. -/
theorem batchSlices_mem_le {α : Type} (l : List α) (M : Nat) (c : List α)
    (hc : c ∈ batchSlices l M) : c.length ≤ M := by
  rw [batchSlices_eq] at hc
  by_cases h : M < l.length
  · rw [if_pos h] at hc
    exact batchRec_mem_length M _ l c hc
  · rw [if_neg h] at hc
    have := List.mem_singleton.mp hc
    subst this
    omega

/-- Progress events of a completed embedding phase for `n` chunks. -/
def embedPhaseEvents (n : Nat) : List Ev :=
  if MAX_BATCH_SIZE < n then
    (List.range (numBatches n MAX_BATCH_SIZE)).map fun j =>
      ⟨.embedding, 20 + j * 70 / numBatches n MAX_BATCH_SIZE⟩
  else []

/-- Progress events of the store phase for `n` records. -/
def storePhaseEvents (n : Nat) : List Ev :=
  if CHROMA_MAX_BATCH < n then
    (List.range (numBatches n CHROMA_MAX_BATCH)).map fun j =>
      ⟨.saving, 90 + j * 9 / numBatches n CHROMA_MAX_BATCH⟩
  else []

/-- Splitting off the first index of the per-batch event sequence. -/
theorem range_succ_map_ev (st : EvStatus) (base mul nb n bi : Nat) :
    (List.range (n + 1)).map (fun j => (⟨st, base + (bi + j) * mul / nb⟩ : Ev)) =
      ⟨st, base + bi * mul / nb⟩ ::
        (List.range n).map
          (fun j => (⟨st, base + (bi + 1 + j) * mul / nb⟩ : Ev)) := by
  simp only [List.range_succ_eq_map, List.map_cons, List.map_map,
    List.cons.injEq]
  constructor
  · rfl
  · apply List.map_congr_left
    intro a _
    simp only [Function.comp_apply]
    have harith : bi + Nat.succ a = bi + 1 + a := by omega
    rw [harith]

/-- Dropping the vacuous `0 +` of the first batch index. -/
theorem range_map_ev_zero (st : EvStatus) (base mul nb k : Nat) :
    (List.range k).map (fun j => (⟨st, base + (0 + j) * mul / nb⟩ : Ev)) =
      (List.range k).map (fun j => (⟨st, base + j * mul / nb⟩ : Ev)) := by
  apply List.map_congr_left
  intro a _
  rw [Nat.zero_add]

/-- A completed embedding loop issued every batch in order, sent one event
per batch, and accumulated the returned vectors in order. -/
theorem embedLoopGo_eq_of_some {α β : Type} (svc : List α → List β)
    (c : Option Nat) (nb : Nat) :
    ∀ (bs : List (List α)) (bi : Nat) (acc : List β),
      (embedLoopGo svc c nb bs bi acc).vectors.isSome →
      embedLoopGo svc c nb bs bi acc =
        ⟨(List.range bs.length).map fun j =>
            ⟨.embedding, 20 + (bi + j) * 70 / nb⟩,
          bs, some (acc ++ (bs.map svc).flatten)⟩ := by
  intro bs
  induction bs with
  | nil =>
    intro bi acc _
    simp [embedLoopGo]
  | cons b rest ih =>
    intro bi acc hsome
    rw [embedLoopGo] at hsome ⊢
    by_cases hcc : cancelCheck c bi
    · rw [if_pos hcc] at hsome
      simp at hsome
    · rw [if_neg hcc] at hsome ⊢
      simp only [] at hsome ⊢
      rw [ih (bi + 1) (acc ++ svc b) hsome, List.length_cons,
        range_succ_map_ev]
      have hvec : acc ++ ((b :: rest).map svc).flatten =
          (acc ++ svc b) ++ (rest.map svc).flatten := by
        rw [List.map_cons, List.flatten_cons, List.append_assoc]
      rw [hvec]

/-- If the abort signal stays clear for every batch, the embedding loop
completes. -/
theorem embedLoopGo_isSome_of_clear {α β : Type} (svc : List α → List β)
    (c : Option Nat) (nb : Nat) :
    ∀ (bs : List (List α)) (bi : Nat) (acc : List β),
      (∀ j, j < bs.length → cancelCheck c (bi + j) = false) →
      (embedLoopGo svc c nb bs bi acc).vectors.isSome := by
  intro bs
  induction bs with
  | nil =>
    intro bi acc _
    simp [embedLoopGo]
  | cons b rest ih =>
    intro bi acc hclear
    rw [embedLoopGo]
    have h0 : cancelCheck c bi = false := by
      have := hclear 0 (by simp)
      simpa using this
    rw [if_neg (by rw [h0]; exact Bool.false_ne_true)]
    simp only []
    apply ih
    intro j hj
    have := hclear (j + 1) (by simpa using Nat.succ_lt_succ hj)
    rw [← this]
    congr 1
    omega

/-- A completed embedding phase issued exactly the batch payloads of
`batchSlices`, sent the phase's per-batch events, and returned the
batch-wise vectors in order. -/
theorem embedPhase_eq_of_some {α β : Type} (chunks : List α)
    (svc : List α → List β) (c : Option Nat)
    (h : (embedPhase chunks svc c).vectors.isSome) :
    embedPhase chunks svc c =
      ⟨embedPhaseEvents chunks.length, batchSlices chunks MAX_BATCH_SIZE,
        some ((batchSlices chunks MAX_BATCH_SIZE).map svc).flatten⟩ := by
  unfold embedPhase at h ⊢
  by_cases hbig : MAX_BATCH_SIZE < chunks.length
  · rw [if_pos hbig] at h ⊢
    rw [embedLoopGo_eq_of_some svc c _ _ 0 [] h]
    have hlen : (batchSlices chunks MAX_BATCH_SIZE).length =
        numBatches chunks.length MAX_BATCH_SIZE := by
      rw [batchSlices_length, if_pos hbig]
    have hev : embedPhaseEvents chunks.length =
        (List.range (numBatches chunks.length MAX_BATCH_SIZE)).map fun j =>
          (⟨.embedding,
            20 + j * 70 / numBatches chunks.length MAX_BATCH_SIZE⟩ : Ev) := by
      unfold embedPhaseEvents
      rw [if_pos hbig]
    rw [hlen, range_map_ev_zero, ← hev, List.nil_append]
  · rw [if_neg hbig] at h ⊢
    by_cases hcc : cancelCheck c 0
    · rw [if_pos hcc] at h
      simp at h
    · rw [if_neg hcc]
      have hbs : batchSlices chunks MAX_BATCH_SIZE = [chunks] := by
        unfold batchSlices
        rw [if_neg hbig]
      have hev : embedPhaseEvents chunks.length = [] := by
        unfold embedPhaseEvents
        rw [if_neg hbig]
      rw [hbs, hev]
      simp

/-- If the abort signal stays clear for every embedding call, the embedding
phase completes. -/
theorem embedPhase_isSome_of_clear {α β : Type} (chunks : List α)
    (svc : List α → List β) (c : Option Nat)
    (hclear : ∀ i, i < embedCallCount chunks.length → cancelCheck c i = false) :
    (embedPhase chunks svc c).vectors.isSome := by
  unfold embedPhase
  unfold embedCallCount at hclear
  by_cases hbig : MAX_BATCH_SIZE < chunks.length
  · rw [if_pos hbig]
    rw [if_pos hbig] at hclear
    apply embedLoopGo_isSome_of_clear
    intro j hj
    apply hclear
    rw [batchSlices_length, if_pos hbig] at hj
    simpa using hj
  · rw [if_neg hbig]
    rw [if_neg hbig] at hclear
    have h0 : cancelCheck c 0 = false := hclear 0 (by omega)
    rw [if_neg (by rw [h0]; exact Bool.false_ne_true)]
    rfl

/-- The store loop issues every batch in order with one event per batch. -/
theorem storeLoopGo_eq {ρ : Type} (nsb : Nat) :
    ∀ (bs : List (List ρ)) (bi : Nat),
      storeLoopGo nsb bs bi =
        ((List.range bs.length).map fun j =>
            ⟨.saving, 90 + (bi + j) * 9 / nsb⟩,
          bs) := by
  intro bs
  induction bs with
  | nil => intro bi; rfl
  | cons b rest ih =>
    intro bi
    rw [storeLoopGo]
    rw [ih (bi + 1), List.length_cons, range_succ_map_ev]

/-- The store phase writes exactly the batch payloads of `batchSlices` and
sends the phase's per-batch events. -/
theorem storePhase_eq {ρ : Type} (records : List ρ) :
    storePhase records =
      (storePhaseEvents records.length,
        batchSlices records CHROMA_MAX_BATCH) := by
  unfold storePhase
  by_cases hbig : CHROMA_MAX_BATCH < records.length
  · rw [if_pos hbig, storeLoopGo_eq]
    have hlen : (batchSlices records CHROMA_MAX_BATCH).length =
        numBatches records.length CHROMA_MAX_BATCH := by
      rw [batchSlices_length, if_pos hbig]
    have hev : storePhaseEvents records.length =
        (List.range (numBatches records.length CHROMA_MAX_BATCH)).map fun j =>
          (⟨.saving,
            90 + j * 9 / numBatches records.length CHROMA_MAX_BATCH⟩ : Ev) := by
      unfold storePhaseEvents
      rw [if_pos hbig]
    rw [hlen, range_map_ev_zero, ← hev]
  · rw [if_neg hbig]
    have hbs : batchSlices records CHROMA_MAX_BATCH = [records] := by
      unfold batchSlices
      rw [if_neg hbig]
    have hev : storePhaseEvents records.length = [] := by
      unfold storePhaseEvents
      rw [if_neg hbig]
    rw [hbs, hev]

/-- Characterization of a run whose abort signal stays clear through the
embedding phase, with an embedding service returning one vector per chunk:
the run completes, emits the full event sequence, and writes every record in
store-batch order.  The store phase takes no cancellation input (the source
passes no signal to `collection.add` and reads no abort flag in the save
loop), so this holds for every `cancelAt` at or past the embedding calls. -/
theorem runIngestion_of_clear {α β : Type} (chunks : List α) (f : α → β)
    (c : Option Nat)
    (hclear : ∀ i, i < embedCallCount chunks.length → cancelCheck c i = false) :
    runIngestion chunks (fun b => b.map f) c =
      ⟨[⟨.started, 0⟩, ⟨.collectionFound, 5⟩, ⟨.extracting, 10⟩,
          ⟨.chunking, 15⟩, ⟨.embedding, 20⟩] ++
          embedPhaseEvents chunks.length ++
          [⟨.embedding, 90⟩, ⟨.saving, 90⟩] ++
          storePhaseEvents chunks.length ++ [⟨.complete, 100⟩],
        batchSlices (chunks.zip (chunks.map f)) CHROMA_MAX_BATCH,
        .completed⟩ := by
  have hsome := embedPhase_isSome_of_clear chunks (fun b => b.map f) c hclear
  have heq := embedPhase_eq_of_some chunks (fun b => b.map f) c hsome
  have hvecs : ((batchSlices chunks MAX_BATCH_SIZE).map
      (fun b => b.map f)).flatten = chunks.map f := by
    rw [← List.map_flatten,
      batchSlices_flatten chunks MAX_BATCH_SIZE (by norm_num [MAX_BATCH_SIZE])]
  unfold runIngestion
  rw [heq]
  dsimp only
  rw [hvecs]
  rw [if_neg (by rw [List.length_map]; omega)]
  rw [storePhase_eq]
  have hzlen : (chunks.zip (chunks.map f)).length = chunks.length := by
    rw [List.length_zip, List.length_map, Nat.min_self]
  rw [hzlen]

/-- Counterexample to C1 as stated: with zero chunks the code still issues
one embedding-service call (the `else` branch of part_003 line 213 fetches
with the empty chunk list), while `ceil(0 / 50) = 0` calls were claimed. -/
theorem embed_batching_zero_counterexample :
    ((embedPhase ([] : List Nat) (fun b => b.map Nat.succ) none).calls).length
        = 1 ∧
      numBatches 0 MAX_BATCH_SIZE = 0 := by
  decide

/-- C1 as amended: for every nonempty chunk list the embedding phase issues
exactly `ceil(N / MAX_BATCH_SIZE)` embedding-service calls, sequentially
over consecutive slices of at most `MAX_BATCH_SIZE` chunks whose
concatenation in issue order is the original chunk list, and accumulates
exactly one vector per chunk in the original order.  (With zero chunks a
single call carrying the empty list is issued instead of none.) -/
theorem embed_batching {α β : Type} (chunks : List α) (f : α → β)
    (hN : 0 < chunks.length) :
    ((embedPhase chunks (fun b => b.map f) none).calls).length =
        numBatches chunks.length MAX_BATCH_SIZE ∧
      (∀ b ∈ (embedPhase chunks (fun b => b.map f) none).calls,
        b.length ≤ MAX_BATCH_SIZE) ∧
      ((embedPhase chunks (fun b => b.map f) none).calls).flatten = chunks ∧
      (embedPhase chunks (fun b => b.map f) none).vectors =
        some (chunks.map f) := by
  have hsome := embedPhase_isSome_of_clear chunks (fun b => b.map f) none
    (fun _ _ => rfl)
  have heq := embedPhase_eq_of_some chunks (fun b => b.map f) none hsome
  rw [heq]
  refine ⟨?_, ?_, ?_, ?_⟩
  · rw [batchSlices_length]
    by_cases hbig : MAX_BATCH_SIZE < chunks.length
    · rw [if_pos hbig]
    · rw [if_neg hbig]
      simp only [numBatches, MAX_BATCH_SIZE] at hbig ⊢
      omega
  · intro b hb
    exact batchSlices_mem_le _ _ _ hb
  · exact batchSlices_flatten _ _ (by norm_num [MAX_BATCH_SIZE])
  · rw [← List.map_flatten,
      batchSlices_flatten chunks MAX_BATCH_SIZE (by norm_num [MAX_BATCH_SIZE])]

/-- Witness for the amended C1 at a concrete input. -/
theorem embed_batching_witness :
    0 < ([1, 2, 3] : List Nat).length ∧
      (((embedPhase ([1, 2, 3] : List Nat) (fun b => b.map Nat.succ)
            none).calls).length =
          numBatches ([1, 2, 3] : List Nat).length MAX_BATCH_SIZE ∧
        (∀ b ∈ (embedPhase ([1, 2, 3] : List Nat) (fun b => b.map Nat.succ)
            none).calls, b.length ≤ MAX_BATCH_SIZE) ∧
        ((embedPhase ([1, 2, 3] : List Nat) (fun b => b.map Nat.succ)
            none).calls).flatten = [1, 2, 3] ∧
        (embedPhase ([1, 2, 3] : List Nat) (fun b => b.map Nat.succ)
            none).vectors = some ([1, 2, 3].map Nat.succ)) :=
  ⟨by decide, embed_batching [1, 2, 3] Nat.succ (by decide)⟩

/-- C2: when the embedding phase completes with a vector count different
from the chunk count, the run terminates with the embedding-count-mismatch
failure, the terminal event is the error event, and no store-write call is
issued — the destination collection is untouched in that run. -/
theorem mismatch_aborts_before_store {α β : Type} (chunks : List α)
    (svc : List α → List β) (c : Option Nat) (vs : List β)
    (hv : (embedPhase chunks svc c).vectors = some vs)
    (hne : vs.length ≠ chunks.length) :
    (runIngestion chunks svc c).storeCalls = [] ∧
      (runIngestion chunks svc c).outcome =
        Outcome.failedMismatch chunks.length vs.length ∧
      (runIngestion chunks svc c).events.getLast? =
        some ⟨.errorEv, 0⟩ := by
  simp only [runIngestion]
  rw [hv]
  dsimp only
  rw [if_pos hne]
  refine ⟨rfl, rfl, ?_⟩
  exact List.getLast?_concat _

/-- Witness for C2 at a concrete input: a service that drops the vector of
the single chunk triggers the mismatch failure with no store write. -/
theorem mismatch_aborts_before_store_witness :
    (embedPhase ([7] : List Nat) (fun _ => ([] : List Nat)) none).vectors =
        some [] ∧
      ([] : List Nat).length ≠ ([7] : List Nat).length ∧
      ((runIngestion ([7] : List Nat) (fun _ => ([] : List Nat))
            none).storeCalls = [] ∧
        (runIngestion ([7] : List Nat) (fun _ => ([] : List Nat))
            none).outcome = Outcome.failedMismatch 1 0 ∧
        (runIngestion ([7] : List Nat) (fun _ => ([] : List Nat))
            none).events.getLast? = some ⟨.errorEv, 0⟩) :=
  ⟨by decide, by decide,
    mismatch_aborts_before_store [7] (fun _ => []) none [] (by decide)
      (by decide)⟩

/-- Counterexample to C4 as stated: a 5001-chunk run has `n = 2` store
sub-batches (`CHROMA_MAX_BATCH = 5000`) and 101 embedding calls; with
cancellation signalled at call index 102 — after store sub-batch 1 has
completed and before sub-batch 2 is issued — the run still issues the
second store-write call, persists all 5001 records, and reports success:
the cancellation is never observed by the store loop. -/
theorem store_cancellation_counterexample :
    ((runIngestion (List.replicate 5001 (0 : Nat)) (fun b => b.map id)
        (some 102)).storeCalls).length = 2 ∧
      ((runIngestion (List.replicate 5001 (0 : Nat)) (fun b => b.map id)
        (some 102)).storeCalls).flatten.length = 5001 ∧
      (runIngestion (List.replicate 5001 (0 : Nat)) (fun b => b.map id)
        (some 102)).outcome = Outcome.completed ∧
      embedCallCount 5001 = 101 := by
  have hcc : embedCallCount (List.replicate 5001 (0 : Nat)).length = 101 := by
    rw [List.length_replicate]
    decide
  have hclear : ∀ i, i < embedCallCount (List.replicate 5001 (0 : Nat)).length →
      cancelCheck (some 102) i = false := by
    intro i hi
    rw [hcc] at hi
    unfold cancelCheck
    apply decide_eq_false
    omega
  rw [runIngestion_of_clear _ id (some 102) hclear]
  have hzlen : ((List.replicate 5001 (0 : Nat)).zip
      ((List.replicate 5001 (0 : Nat)).map id)).length = 5001 := by
    rw [List.length_zip, List.length_map, Nat.min_self, List.length_replicate]
  refine ⟨?_, ?_, rfl, by decide⟩
  · rw [batchSlices_length, hzlen]
    decide
  · rw [batchSlices_flatten _ _ (by norm_num [CHROMA_MAX_BATCH]), hzlen]

/-- C4 as amended: cancellation is observed only by the embedding-service
calls; the store loop never consults the abort signal, so if cancellation
is signalled at any remote-call index at or past the start of the store
phase (in particular between two store sub-batches), every store sub-batch
is still issued, all records are persisted, and the run reports success. -/
theorem store_phase_ignores_cancellation {α β : Type} (chunks : List α)
    (f : α → β) (t : Nat) (ht : embedCallCount chunks.length ≤ t) :
    (runIngestion chunks (fun b => b.map f) (some t)).storeCalls =
        batchSlices (chunks.zip (chunks.map f)) CHROMA_MAX_BATCH ∧
      ((runIngestion chunks (fun b => b.map f) (some t)).storeCalls).flatten =
        chunks.zip (chunks.map f) ∧
      (runIngestion chunks (fun b => b.map f) (some t)).outcome =
        Outcome.completed := by
  have hclear : ∀ i, i < embedCallCount chunks.length →
      cancelCheck (some t) i = false := by
    intro i hi
    unfold cancelCheck
    apply decide_eq_false
    omega
  rw [runIngestion_of_clear chunks f (some t) hclear]
  refine ⟨rfl, ?_, rfl⟩
  exact batchSlices_flatten _ _ (by norm_num [CHROMA_MAX_BATCH])

/-- Witness for the amended C4 at a concrete input. -/
theorem store_phase_ignores_cancellation_witness :
    embedCallCount ([4] : List Nat).length ≤ 1 ∧
      ((runIngestion ([4] : List Nat) (fun b => b.map Nat.succ)
            (some 1)).storeCalls =
          batchSlices (([4] : List Nat).zip ([4].map Nat.succ))
            CHROMA_MAX_BATCH ∧
        ((runIngestion ([4] : List Nat) (fun b => b.map Nat.succ)
            (some 1)).storeCalls).flatten =
          ([4] : List Nat).zip ([4].map Nat.succ) ∧
        (runIngestion ([4] : List Nat) (fun b => b.map Nat.succ)
            (some 1)).outcome = Outcome.completed) :=
  ⟨by decide, store_phase_ignores_cancellation [4] Nat.succ 1 (by decide)⟩

/-- Embedding-phase events carry progress values in `[20, 90)`. -/
theorem embedPhaseEvents_bounds (n : Nat) :
    ∀ e ∈ embedPhaseEvents n, 20 ≤ e.progress ∧ e.progress < 90 := by
  intro e he
  unfold embedPhaseEvents at he
  split at he
  · next hbig =>
    obtain ⟨j, hj, rfl⟩ := List.mem_map.mp he
    rw [List.mem_range] at hj
    have hnb : 0 < numBatches n MAX_BATCH_SIZE :=
      numBatches_pos n MAX_BATCH_SIZE (by norm_num [MAX_BATCH_SIZE]) (by omega)
    have hdiv : j * 70 / numBatches n MAX_BATCH_SIZE < 70 := by
      rw [Nat.div_lt_iff_lt_mul hnb]
      calc j * 70 < numBatches n MAX_BATCH_SIZE * 70 := by
            exact Nat.mul_lt_mul_of_lt_of_le hj (le_refl 70) (by omega)
        _ = 70 * numBatches n MAX_BATCH_SIZE := Nat.mul_comm _ _
    constructor
    · simp
    · simp only []
      omega
  · cases he

/-- Store-phase events carry progress values in `[90, 100)`. -/
theorem storePhaseEvents_bounds (n : Nat) :
    ∀ e ∈ storePhaseEvents n, 90 ≤ e.progress ∧ e.progress < 100 := by
  intro e he
  unfold storePhaseEvents at he
  split at he
  · next hbig =>
    obtain ⟨j, hj, rfl⟩ := List.mem_map.mp he
    rw [List.mem_range] at hj
    have hnb : 0 < numBatches n CHROMA_MAX_BATCH :=
      numBatches_pos n CHROMA_MAX_BATCH (by norm_num [CHROMA_MAX_BATCH])
        (by omega)
    have hdiv : j * 9 / numBatches n CHROMA_MAX_BATCH < 9 := by
      rw [Nat.div_lt_iff_lt_mul hnb]
      calc j * 9 < numBatches n CHROMA_MAX_BATCH * 9 := by
            exact Nat.mul_lt_mul_of_lt_of_le hj (le_refl 9) (by omega)
        _ = 9 * numBatches n CHROMA_MAX_BATCH := Nat.mul_comm _ _
    constructor
    · simp
    · simp only []
      omega
  · cases he

/-- Per-batch progress values are non-decreasing in the batch index. -/
theorem range_map_div_pairwise (st : EvStatus) (base mul nb k : Nat) :
    List.Pairwise (fun a b : Ev => a.progress ≤ b.progress)
      ((List.range k).map fun j => (⟨st, base + j * mul / nb⟩ : Ev)) := by
  apply List.Pairwise.map
  · intro a b hab
    simp only []
    have : a * mul ≤ b * mul := Nat.mul_le_mul_right mul (le_of_lt hab)
    have := Nat.div_le_div_right (c := nb) this
    omega
  · exact List.pairwise_lt_range k

/-- The embedding-phase event sequence is non-decreasing in progress. -/
theorem embedPhaseEvents_pairwise (n : Nat) :
    List.Pairwise (fun a b : Ev => a.progress ≤ b.progress)
      (embedPhaseEvents n) := by
  unfold embedPhaseEvents
  split
  · exact range_map_div_pairwise .embedding 20 70 _ _
  · exact List.Pairwise.nil

/-- The store-phase event sequence is non-decreasing in progress. -/
theorem storePhaseEvents_pairwise (n : Nat) :
    List.Pairwise (fun a b : Ev => a.progress ≤ b.progress)
      (storePhaseEvents n) := by
  unfold storePhaseEvents
  split
  · exact range_map_div_pairwise .saving 90 9 _ _
  · exact List.Pairwise.nil

/-- Two sorted blocks concatenate to a sorted list when every element of
the first is at most every element of the second. -/
theorem pairwise_le_append {l₁ l₂ : List Nat}
    (h₁ : List.Pairwise (· ≤ ·) l₁) (h₂ : List.Pairwise (· ≤ ·) l₂)
    (h : ∀ x ∈ l₁, ∀ y ∈ l₂, x ≤ y) :
    List.Pairwise (· ≤ ·) (l₁ ++ l₂) :=
  List.pairwise_append.mpr ⟨h₁, h₂, h⟩

/-- The full progress sequence of a successful run is non-decreasing. -/
theorem progress_list_sorted (N : Nat) :
    List.Pairwise (· ≤ ·)
      (([0, 5, 10, 15, 20] ++ (embedPhaseEvents N).map Ev.progress ++
        [90, 90] ++ (storePhaseEvents N).map Ev.progress ++ [100] :
          List Nat)) := by
  have hm2 : List.Pairwise (· ≤ ·) ((embedPhaseEvents N).map Ev.progress) :=
    List.Pairwise.map _ (fun _ _ h => h) (embedPhaseEvents_pairwise N)
  have hm4 : List.Pairwise (· ≤ ·) ((storePhaseEvents N).map Ev.progress) :=
    List.Pairwise.map _ (fun _ _ h => h) (storePhaseEvents_pairwise N)
  have hb2 : ∀ x ∈ (embedPhaseEvents N).map Ev.progress, 20 ≤ x ∧ x < 90 := by
    intro x hx
    obtain ⟨e, he, rfl⟩ := List.mem_map.mp hx
    exact embedPhaseEvents_bounds N e he
  have hb4 : ∀ x ∈ (storePhaseEvents N).map Ev.progress,
      90 ≤ x ∧ x < 100 := by
    intro x hx
    obtain ⟨e, he, rfl⟩ := List.mem_map.mp hx
    exact storePhaseEvents_bounds N e he
  have hpre : ∀ y ∈ ([0, 5, 10, 15, 20] : List Nat), y ≤ 20 := by decide
  have hmid : ∀ y ∈ ([90, 90] : List Nat), y = 90 := by decide
  have hlast : ∀ y ∈ ([100] : List Nat), y = 100 := by decide
  apply pairwise_le_append
  · apply pairwise_le_append
    · apply pairwise_le_append
      · apply pairwise_le_append
        · decide
        · exact hm2
        · intro x hx y hy
          have hx' := hpre x hx
          have := (hb2 y hy).1
          omega
      · decide
      · intro x hx y hy
        have hy' := hmid y hy
        rcases List.mem_append.mp hx with hx | hx
        · have := hpre x hx
          omega
        · have := (hb2 x hx).2
          omega
    · exact hm4
    · intro x hx y hy
      have hy' := (hb4 y hy).1
      rcases List.mem_append.mp hx with hx | hx
      · rcases List.mem_append.mp hx with hx | hx
        · have := hpre x hx
          omega
        · have := (hb2 x hx).2
          omega
      · have := hmid x hx
        omega
  · decide
  · intro x hx y hy
    have hy' := hlast y hy
    rcases List.mem_append.mp hx with hx | hx
    · rcases List.mem_append.mp hx with hx | hx
      · rcases List.mem_append.mp hx with hx | hx
        · have := hpre x hx
          omega
        · have := (hb2 x hx).2
          omega
      · have := hmid x hx
        omega
    · have := (hb4 x hx).2
      omega

/-- C3: in every run that ends with the success event, the progress values
of the emitted events are monotonically non-decreasing from the first event
to the last, and the final event carries progress exactly 100. -/
theorem progress_monotone {α β : Type} (chunks : List α)
    (svc : List α → List β) (c : Option Nat)
    (hrun : (runIngestion chunks svc c).outcome = Outcome.completed) :
    List.Pairwise (· ≤ ·)
        ((runIngestion chunks svc c).events.map Ev.progress) ∧
      ((runIngestion chunks svc c).events.map Ev.progress).getLast? =
        some 100 := by
  rcases hv : (embedPhase chunks svc c).vectors with _ | vs
  · exfalso
    simp only [runIngestion] at hrun
    rw [hv] at hrun
    exact Outcome.noConfusion hrun
  · by_cases hne : vs.length ≠ chunks.length
    · exfalso
      simp only [runIngestion] at hrun
      rw [hv] at hrun
      dsimp only at hrun
      rw [if_pos hne] at hrun
      exact Outcome.noConfusion hrun
    · have hsome : (embedPhase chunks svc c).vectors.isSome := by
        rw [hv]
        rfl
      have heqe := embedPhase_eq_of_some chunks svc c hsome
      have hev : (embedPhase chunks svc c).events =
          embedPhaseEvents chunks.length := by rw [heqe]
      push_neg at hne
      have hzlen : (chunks.zip vs).length = chunks.length := by
        rw [List.length_zip, hne, Nat.min_self]
      have hlist : (runIngestion chunks svc c).events =
          [⟨.started, 0⟩, ⟨.collectionFound, 5⟩, ⟨.extracting, 10⟩,
            ⟨.chunking, 15⟩, ⟨.embedding, 20⟩] ++
            embedPhaseEvents chunks.length ++
            [⟨.embedding, 90⟩, ⟨.saving, 90⟩] ++
            storePhaseEvents chunks.length ++ [⟨.complete, 100⟩] := by
        simp only [runIngestion]
        rw [hv]
        dsimp only
        rw [if_neg (by omega : ¬ vs.length ≠ chunks.length)]
        rw [storePhase_eq, hzlen, hev]
      rw [hlist]
      constructor
      · simp only [List.map_append, List.map_cons, List.map_nil]
        exact progress_list_sorted chunks.length
      · simp only [List.map_append, List.map_cons, List.map_nil]
        exact List.getLast?_concat _

/-- Witness for C3 at a concrete input: a one-chunk run with an identity
embedding service completes, with sorted progress ending at 100. -/
theorem progress_monotone_witness :
    (runIngestion ([3] : List Nat) (fun l => l) none).outcome =
        Outcome.completed ∧
      (List.Pairwise (· ≤ ·)
          ((runIngestion ([3] : List Nat) (fun l => l) none).events.map
            Ev.progress) ∧
        ((runIngestion ([3] : List Nat) (fun l => l) none).events.map
          Ev.progress).getLast? = some 100) :=
  ⟨by decide, progress_monotone [3] (fun l => l) none (by decide)⟩

/-!
Claim C9: chunk annotation of the retrieval tool
(`createGetAdditionalContextTool`, part_005 lines 72-103).  The string
assembly is modelled structurally: the header `[ChunkID chunkNum of total]`
is the pair `(chunkNum, total)` and the trailing marker is `Marker`.  The
metadata written by the ingestion pipeline stores `chunkIndex` as the
0-based position `index ∈ [0, totalChunks)` of the chunk
(`extractMetadata(fileName, fileType, fileSize, index, chunks.length)`,
part_003 lines 299-301), so the last chunk of an `N`-chunk document carries
`chunkIndex = N - 1`.  In the source, `chunkNum = Number(chunkIndex)` — the
1-based conversion `Number(chunkIndex) + 1` is commented out at part_005
line 82 — and the marker condition is `chunkNum < total`.
-/

/-- Trailing marker appended to a retrieved chunk's content:
`[Continues on chunkID nextId of total]` or `[End of document]`. -/
inductive Marker : Type
  | continuesOn (nextId total : Nat)
  | endOfDocument
deriving Repr, DecidableEq

/-- Structural model of the `enhancedContent` decoration. -/
structure EnhancedContent where
  header : Option (Nat × Nat)
  marker : Option Marker
deriving Repr, DecidableEq

/-- Embedding of part_005 lines 75-96: when the metadata carries both
`chunkIndex` and `totalChunks`, the content is annotated with the header
`[ChunkID chunkNum of total]` and one trailing marker, chosen by
`chunkNum < total`; without metadata the content is returned bare. -/
def formatRetrievedChunk (chunkIndex totalChunks : Option Nat) :
    EnhancedContent :=
  match chunkIndex, totalChunks with
  | some ci, some tc =>
    { header := some (ci, tc),
      marker := some (if ci < tc then Marker.continuesOn (ci + 1) tc
        else Marker.endOfDocument) }
  | _, _ => { header := none, marker := none }

/-- C9 (code bug, evaluated at the failing input): the last chunk of a
3-chunk document has `chunkIndex = 2`, `totalChunks = 3`; the code
annotates its position but attaches `[Continues on chunkID 3 of 3]` even
though no chunk 3 exists (valid 0-based indices are 0..2), instead of the
`[End of document]` marker its own comment promises for the last chunk —
indeed no chunk of the document can ever receive the end-of-document
marker. -/
theorem last_chunk_marked_as_continuing :
    (formatRetrievedChunk (some 2) (some 3)).marker =
        some (Marker.continuesOn 3 3) ∧
      (formatRetrievedChunk (some 2) (some 3)).header = some (2, 3) ∧
      (∀ i < 3, (formatRetrievedChunk (some i) (some 3)).marker ≠
        some Marker.endOfDocument) ∧
      ¬ 3 < 3 := by
  decide
